import Mathlib

/-!
Verification of the traffic-analysis crossing-detection / speed-estimation
pipeline (`src/v2/detect_cars.py` and `src/v2/analyze.py`).

Numbers that the Python code handles as floats (positions, timestamps,
speeds, percentiles) are embedded as rationals `ℚ`, so all arithmetic is
exact; machine integers (track ids, class labels) are embedded as `Int`,
counters as `Nat`.  The per-observation body of the detection loop
(`detect_cars.run_detection`, lines 120-169) is embedded as a state-passing
`step` function, and a whole run as a fold over a list of observations.
The analyzer's per-record speed computation (`analyze.analyze_stream`,
lines 68-91) and the percentile/binning logic of `analyze.write_report`
(lines 148-190) are embedded as pure functions; Python's
`ZeroDivisionError` on division is made explicit with `Except`.
-/

namespace Traffic

/-- Direction of a detected crossing: `"LTR"` or `"RTL"` in the source. -/
inductive Direction : Type
  | LTR : Direction
  | RTL : Direction
deriving DecidableEq, Repr

/-- Configuration values read from `config.yaml` that the detection loop
uses: `detection.vehicle_classes`, the counting line `line_x`
(`crop_width // 2`), `tracking.min_time_before_count`, and the loop's
`start_time`. -/
structure Config : Type where
  vehicle_classes : List Int
  line_x : ℚ
  min_time_before_count : ℚ
  start_time : ℚ
deriving Repr

/-- One detection delivered by the tracker for one frame: the track id,
the bounding box `x1, y1, x2, y2`, the class label and the frame's
`current_time` (`detect_cars.py` lines 113-120). -/
structure Obs : Type where
  track_id : Int
  x1 : ℚ
  y1 : ℚ
  x2 : ℚ
  y2 : ℚ
  cls : Int
  t : ℚ
deriving Repr

/-- `center_x = (x1 + x2) / 2` (`detect_cars.py` line 127). -/
def center_x (o : Obs) : ℚ := (o.x1 + o.x2) / 2

/-- `center_y = (y1 + y2) / 2` (`detect_cars.py` line 128). -/
def center_y (o : Obs) : ℚ := (o.y1 + o.y2) / 2

/-- The raw crossing record `run_detection` puts on the queue
(`detect_cars.py` lines 156-163). -/
structure Event : Type where
  vehicle_number : Nat
  track_id : Int
  direction : Direction
  distance_pixels : ℚ
  time_elapsed : ℚ
  timestamp : ℚ
deriving DecidableEq, Repr

/-- The detector's mutable state (`detect_cars.py` lines 52-55):
`vehicle_count`, the `crossed_ids` set, and the `previous_positions` /
`first_seen_position` dictionaries keyed by track id. -/
structure DetState : Type where
  vehicle_count : Nat
  crossed_ids : Int → Bool
  previous_positions : Int → Option (ℚ × ℚ)
  first_seen_position : Int → Option (ℚ × ℚ × ℚ)

/-- Initial detector state: count `0`, empty set, empty dictionaries. -/
def initState : DetState :=
  { vehicle_count := 0
    crossed_ids := fun _ => false
    previous_positions := fun _ => none
    first_seen_position := fun _ => none }

/-- `crossed_right = prev_x < line_x <= center_x` (`detect_cars.py`
line 138), Python's chained comparison. -/
def crossed_right (prev_x line_x cx : ℚ) : Bool :=
  prev_x < line_x && line_x ≤ cx

/-- `crossed_left = prev_x > line_x >= center_x` (`detect_cars.py`
line 139), Python's chained comparison. -/
def crossed_left (prev_x line_x cx : ℚ) : Bool :=
  prev_x > line_x && line_x ≥ cx

/-- One iteration of the per-detection loop body of
`run_detection` (`detect_cars.py` lines 120-169) on one observation:
returns the updated state and the list of records put on the queue by
this iteration (`[]` or one element).  The first-seen anchor is recorded
before the crossing test; the crossing test reads the previous position
saved by the last iteration for this id; `previous_positions` is updated
at the end of the body on every non-filtered observation. -/
def step (cfg : Config) (s : DetState) (o : Obs) : DetState × List Event :=
  if o.cls ∈ cfg.vehicle_classes then
    let firstv := (s.first_seen_position o.track_id).getD (center_x o, center_y o, o.t)
    let fs : Int → Option (ℚ × ℚ × ℚ) :=
      fun i => if i = o.track_id then some firstv else s.first_seen_position i
    let pp : Int → Option (ℚ × ℚ) :=
      fun i => if i = o.track_id then some (center_x o, center_y o) else s.previous_positions i
    match s.previous_positions o.track_id with
    | none => ({ s with first_seen_position := fs, previous_positions := pp }, [])
    | some prev =>
      if (crossed_right prev.1 cfg.line_x (center_x o)
            || crossed_left prev.1 cfg.line_x (center_x o))
          && !s.crossed_ids o.track_id then
        let distance_pixels := |center_x o - firstv.1|
        let time_elapsed := o.t - firstv.2.2
        if time_elapsed > cfg.min_time_before_count then
          ({ vehicle_count := s.vehicle_count + 1
             crossed_ids := fun i => if i = o.track_id then true else s.crossed_ids i
             previous_positions := pp
             first_seen_position := fs },
           [{ vehicle_number := s.vehicle_count + 1
              track_id := o.track_id
              direction := if crossed_left prev.1 cfg.line_x (center_x o) then Direction.RTL
                           else Direction.LTR
              distance_pixels := distance_pixels
              time_elapsed := time_elapsed
              timestamp := o.t - cfg.start_time }])
        else ({ s with first_seen_position := fs, previous_positions := pp }, [])
      else ({ s with first_seen_position := fs, previous_positions := pp }, [])
  else (s, [])

/-- A whole detection run: fold `step` over a sequence of observations,
accumulating the queue contents in order (`detect_cars.py` lines 76-202;
the surrounding frame loop only supplies the observations). -/
def run_detection (cfg : Config) : DetState → List Obs → DetState × List Event
  | s, [] => (s, [])
  | s, o :: rest =>
    let p := step cfg s o
    let q := run_detection cfg p.1 rest
    (q.1, p.2 ++ q.2)

/-- Characterization of one `step`: either it emits nothing and leaves
`vehicle_count` and `crossed_ids` unchanged, or it emits exactly one
event, for this observation's track id, numbered `vehicle_count + 1`,
with the elapsed time since first-seen, direction from the crossing test,
with that id previously uncounted, incrementing the counter and adding
exactly that id to the crossed set. -/
theorem step_spec (cfg : Config) (s : DetState) (o : Obs) :
    ((step cfg s o).2 = [] ∧ (step cfg s o).1.vehicle_count = s.vehicle_count ∧
      ∀ i, (step cfg s o).1.crossed_ids i = s.crossed_ids i)
    ∨ (∃ e, (step cfg s o).2 = [e] ∧ e.track_id = o.track_id ∧
        e.vehicle_number = s.vehicle_count + 1 ∧
        e.time_elapsed =
          o.t - ((s.first_seen_position o.track_id).getD (center_x o, center_y o, o.t)).2.2 ∧
        s.crossed_ids o.track_id = false ∧
        (step cfg s o).1.vehicle_count = s.vehicle_count + 1 ∧
        (∀ i, (step cfg s o).1.crossed_ids i =
          (if i = o.track_id then true else s.crossed_ids i)) ∧
        ∃ prev, s.previous_positions o.track_id = some prev ∧
          e.direction = (if crossed_left prev.1 cfg.line_x (center_x o) then Direction.RTL
            else Direction.LTR) ∧
          (crossed_right prev.1 cfg.line_x (center_x o)
            || crossed_left prev.1 cfg.line_x (center_x o)) = true) := by
  by_cases hcls : o.cls ∈ cfg.vehicle_classes
  · rcases hprev : s.previous_positions o.track_id with _ | prev
    · left
      simp [step, hcls, hprev]
    · by_cases hc : ((crossed_right prev.1 cfg.line_x (center_x o)
          || crossed_left prev.1 cfg.line_x (center_x o))
          && !s.crossed_ids o.track_id) = true
      · have hcid : s.crossed_ids o.track_id = false := by
          rw [Bool.and_eq_true] at hc
          simpa using hc.2
        by_cases ht : o.t - ((s.first_seen_position o.track_id).getD
            (center_x o, center_y o, o.t)).2.2 > cfg.min_time_before_count
        · right
          refine ⟨{ vehicle_number := s.vehicle_count + 1
                    track_id := o.track_id
                    direction := if crossed_left prev.1 cfg.line_x (center_x o)
                      then Direction.RTL else Direction.LTR
                    distance_pixels := |center_x o -
                      ((s.first_seen_position o.track_id).getD (center_x o, center_y o, o.t)).1|
                    time_elapsed := o.t -
                      ((s.first_seen_position o.track_id).getD (center_x o, center_y o, o.t)).2.2
                    timestamp := o.t - cfg.start_time },
            ?_, rfl, rfl, rfl, hcid, ?_, ?_,
            ⟨prev, rfl, rfl, by
              rw [Bool.and_eq_true] at hc
              exact hc.1⟩⟩
          · simp [step, hcls, hprev, hc, ht]
          · simp [step, hcls, hprev, hc, ht]
          · intro i
            simp [step, hcls, hprev, hc, ht]
        · left
          simp [step, hcls, hprev, hc, ht]
      · left
        simp [step, hcls, hprev, hc]
  · left
    simp [step, hcls]

/-- Unfolding equation for `run_detection` on a cons cell. -/
theorem run_detection_cons (cfg : Config) (s : DetState) (o : Obs) (rest : List Obs) :
    run_detection cfg s (o :: rest) =
      ((run_detection cfg (step cfg s o).1 rest).1,
        (step cfg s o).2 ++ (run_detection cfg (step cfg s o).1 rest).2) := rfl

/-- Over any run segment, the number of events carrying a given track id is
`0` if the id is already in the crossed set, and at most `1` otherwise. -/
theorem run_count_le (cfg : Config) (id : Int) (obss : List Obs) :
    ∀ s : DetState,
      ((run_detection cfg s obss).2.countP (fun e => e.track_id = id)) ≤
        (if s.crossed_ids id = true then 0 else 1) := by
  induction obss with
  | nil =>
    intro s
    simp [run_detection]
  | cons o rest ih =>
    intro s
    rw [run_detection_cons]
    rcases step_spec cfg s o with ⟨h2, _, hci⟩ | ⟨e, h2, htid, _, _, hfalse, _, hci, _⟩
    · simp only [h2, List.nil_append]
      have h := ih (step cfg s o).1
      rwa [hci id] at h
    · rw [h2]
      simp only [List.countP_append]
      by_cases hid : o.track_id = id
      · have hcrossed : (step cfg s o).1.crossed_ids id = true := by
          rw [hci id]
          simp [hid.symm]
        have hsid : s.crossed_ids id = false := hid ▸ hfalse
        have h := ih (step cfg s o).1
        rw [if_pos hcrossed] at h
        have hzero : (run_detection cfg (step cfg s o).1 rest).2.countP
            (fun e => e.track_id = id) = 0 := Nat.le_zero.mp h
        have hone : List.countP (fun e => decide (e.track_id = id)) [e] = 1 := by
          simp [List.countP_cons, htid, hid]
        rw [hone, hzero, hsid]
        simp
      · have hzero : List.countP (fun e => decide (e.track_id = id)) [e] = 0 := by
          simp [List.countP_cons, htid, hid]
        rw [hzero]
        have h := ih (step cfg s o).1
        have hne2 : ¬(id = o.track_id) := fun hq => hid hq.symm
        rw [hci id, if_neg hne2] at h
        omega

/-- C1: for every observation sequence in one run and every track id, at
most one crossing event is enqueued for that id; an emitted crossing puts
the id into the crossed-id set, and a step on an id already in the set
emits nothing and leaves the counter and the set unchanged. -/
theorem at_most_once_crossing (cfg : Config) (obss : List Obs) (id : Int) :
    ((run_detection cfg initState obss).2.countP (fun e => e.track_id = id)) ≤ 1
    ∧ (∀ (s : DetState) (o : Obs), (step cfg s o).2 ≠ [] →
        (step cfg s o).1.crossed_ids o.track_id = true)
    ∧ (∀ (s : DetState) (o : Obs), s.crossed_ids o.track_id = true →
        (step cfg s o).2 = [] ∧ (step cfg s o).1.vehicle_count = s.vehicle_count ∧
          ∀ i, (step cfg s o).1.crossed_ids i = s.crossed_ids i) := by
  refine ⟨?_, ?_, ?_⟩
  · have h := run_count_le cfg id obss initState
    simpa [initState] using h
  · intro s o hne
    rcases step_spec cfg s o with ⟨h2, _, _⟩ | ⟨e, h2, _, _, _, _, _, hci, _⟩
    · exact absurd h2 hne
    · rw [hci o.track_id, if_pos rfl]
  · intro s o hmem
    rcases step_spec cfg s o with ⟨h2, hvc, hci⟩ | ⟨e, _, _, _, _, hfalse, _, _, _⟩
    · exact ⟨h2, hvc, hci⟩
    · rw [hmem] at hfalse
      exact absurd hfalse (by simp)

/-- Concrete configuration used by the witnesses: vehicle classes `[2]`,
counting line at `x = 100`, dwell threshold `1/2` s, start time `0`. -/
def cfg0 : Config := { vehicle_classes := [2], line_x := 100, min_time_before_count := 1/2, start_time := 0 }

/-- Witness state: track `7` was first seen at `(90, 50)` at time `0` and
was last seen at `(90, 50)`; nothing is counted yet. -/
def s0 : DetState :=
  { vehicle_count := 0
    crossed_ids := fun _ => false
    previous_positions := fun i => if i = 7 then some (90, 50) else none
    first_seen_position := fun i => if i = 7 then some (90, 50, 0) else none }

/-- Witness state with track `7` already in the crossed-id set. -/
def s1 : DetState :=
  { s0 with crossed_ids := fun i => i = 7 }

/-- Witness observation: track `7`, class `2`, box centered at `(110, 50)`,
at time `2`. -/
def o0 : Obs := { track_id := 7, x1 := 110, y1 := 50, x2 := 110, y2 := 50, cls := 2, t := 2 }

theorem at_most_once_crossing_witness :
    s1.crossed_ids o0.track_id = true ∧
      (step cfg0 s1 o0).2 = [] ∧ (step cfg0 s1 o0).1.vehicle_count = s1.vehicle_count :=
  ⟨by decide, ((at_most_once_crossing cfg0 [] 7).2.2 s1 o0 (by decide)).1,
    ((at_most_once_crossing cfg0 [] 7).2.2 s1 o0 (by decide)).2.1⟩

/-- Cumulative event count bookkeeping of a run segment, and the emitted
vehicle numbers forming the contiguous range starting after the incoming
counter value. -/
theorem run_numbers (cfg : Config) (obss : List Obs) :
    ∀ s : DetState,
      (run_detection cfg s obss).2.map (fun e => e.vehicle_number)
        = List.range' (s.vehicle_count + 1) (run_detection cfg s obss).2.length
      ∧ (run_detection cfg s obss).1.vehicle_count
        = s.vehicle_count + (run_detection cfg s obss).2.length := by
  induction obss with
  | nil =>
    intro s
    simp [run_detection]
  | cons o rest ih =>
    intro s
    rw [run_detection_cons]
    rcases ih (step cfg s o).1 with ⟨hmap, hcount⟩
    rcases step_spec cfg s o with ⟨h2, hvc, _⟩ | ⟨e, h2, _, hnum, _, _, hvc, _, _⟩
    · simp only [h2, List.nil_append]
      rw [hmap, hvc, hcount, hvc]
      exact ⟨rfl, rfl⟩
    · simp only [h2, List.cons_append, List.nil_append, List.map_cons, List.length_cons]
      refine ⟨?_, by rw [hcount, hvc]; omega⟩
      rw [hmap, hvc, hnum, List.range'_succ]

/-- C6: the vehicle numbers carried by the events of a full run, in
emission order, are exactly `1, 2, ..., K` for `K` emitted events. -/
theorem sequential_numbering (cfg : Config) (obss : List Obs) :
    (run_detection cfg initState obss).2.map (fun e => e.vehicle_number)
      = List.range' 1 (run_detection cfg initState obss).2.length := by
  have h := (run_numbers cfg obss initState).1
  simpa [initState] using h

/-- C2: under a detected crossing of an uncounted id, an event is emitted
iff the elapsed time since first-seen strictly exceeds the dwell
threshold; at or below the threshold nothing is emitted, the counter is
unchanged and the id is not added to the crossed set. -/
theorem dwell_threshold (cfg : Config) (s : DetState) (o : Obs) (prev : ℚ × ℚ)
    (hcls : o.cls ∈ cfg.vehicle_classes)
    (hprev : s.previous_positions o.track_id = some prev)
    (hcross : (crossed_right prev.1 cfg.line_x (center_x o)
        || crossed_left prev.1 cfg.line_x (center_x o)) = true)
    (hnot : s.crossed_ids o.track_id = false) :
    (((step cfg s o).2 ≠ []) ↔
      o.t - ((s.first_seen_position o.track_id).getD (center_x o, center_y o, o.t)).2.2
        > cfg.min_time_before_count)
    ∧ (o.t - ((s.first_seen_position o.track_id).getD (center_x o, center_y o, o.t)).2.2
          ≤ cfg.min_time_before_count →
        (step cfg s o).2 = [] ∧ (step cfg s o).1.vehicle_count = s.vehicle_count ∧
          ∀ i, (step cfg s o).1.crossed_ids i = s.crossed_ids i)
    ∧ (∀ e, (step cfg s o).2 = [e] →
        e.time_elapsed =
          o.t - ((s.first_seen_position o.track_id).getD (center_x o, center_y o, o.t)).2.2) := by
  have hc : ((crossed_right prev.1 cfg.line_x (center_x o)
      || crossed_left prev.1 cfg.line_x (center_x o))
      && !s.crossed_ids o.track_id) = true := by
    rw [hcross, hnot]
    rfl
  by_cases ht : o.t - ((s.first_seen_position o.track_id).getD
      (center_x o, center_y o, o.t)).2.2 > cfg.min_time_before_count
  · have h2 : (step cfg s o).2 =
        [{ vehicle_number := s.vehicle_count + 1
           track_id := o.track_id
           direction := if crossed_left prev.1 cfg.line_x (center_x o)
             then Direction.RTL else Direction.LTR
           distance_pixels := |center_x o -
             ((s.first_seen_position o.track_id).getD (center_x o, center_y o, o.t)).1|
           time_elapsed := o.t -
             ((s.first_seen_position o.track_id).getD (center_x o, center_y o, o.t)).2.2
           timestamp := o.t - cfg.start_time }] := by
      simp [step, hcls, hprev, hc, ht]
    refine ⟨⟨fun _ => ht, fun _ => by simp [h2]⟩,
      fun hle => absurd ht (not_lt.mpr hle), fun e he => ?_⟩
    rw [h2] at he
    injection he with h1 _
    rw [← h1]
  · have h2 : (step cfg s o).2 = [] := by
      simp [step, hcls, hprev, hc, ht]
    refine ⟨⟨fun hne => absurd h2 hne, fun hgt => absurd hgt ht⟩, fun _ => ⟨h2, ?_, ?_⟩,
      fun e he => ?_⟩
    · simp [step, hcls, hprev, hc, ht]
    · intro i
      simp [step, hcls, hprev, hc, ht]
    · rw [h2] at he
      exact absurd he (by simp)

theorem dwell_threshold_witness :
    s0.previous_positions o0.track_id = some (90, 50) ∧
      (((step cfg0 s0 o0).2 ≠ []) ↔
        o0.t - ((s0.first_seen_position o0.track_id).getD
          (center_x o0, center_y o0, o0.t)).2.2 > cfg0.min_time_before_count) :=
  ⟨by decide,
    (dwell_threshold cfg0 s0 o0 (90, 50) (by decide) (by decide)
      (by norm_num [crossed_right, crossed_left, center_x, cfg0, o0]) (by decide)).1⟩

/-- C3: the crossing test: `crossed_right` (LTR) holds iff
`prev.x < line_x <= current.x`, `crossed_left` (RTL) holds iff
`prev.x > line_x >= current.x`; with no previous position or with neither
test true nothing is emitted; any emitted event's direction comes from the
test; and with `line_x = 100`, `90 → 110` is LTR, `110 → 90` is RTL and
`90 → 95` is no crossing. -/
theorem direction_classification :
    (∀ px lx cx : ℚ, crossed_right px lx cx = true ↔ px < lx ∧ lx ≤ cx)
    ∧ (∀ px lx cx : ℚ, crossed_left px lx cx = true ↔ px > lx ∧ lx ≥ cx)
    ∧ (∀ (cfg : Config) (s : DetState) (o : Obs),
        s.previous_positions o.track_id = none → (step cfg s o).2 = [])
    ∧ (∀ (cfg : Config) (s : DetState) (o : Obs) (prev : ℚ × ℚ),
        s.previous_positions o.track_id = some prev →
        crossed_right prev.1 cfg.line_x (center_x o) = false →
        crossed_left prev.1 cfg.line_x (center_x o) = false →
        (step cfg s o).2 = [])
    ∧ (∀ (cfg : Config) (s : DetState) (o : Obs) (e : Event),
        (step cfg s o).2 = [e] →
        ∃ prev, s.previous_positions o.track_id = some prev ∧
          e.direction = (if crossed_left prev.1 cfg.line_x (center_x o) then Direction.RTL
            else Direction.LTR) ∧
          (crossed_right prev.1 cfg.line_x (center_x o)
            || crossed_left prev.1 cfg.line_x (center_x o)) = true)
    ∧ (crossed_right 90 100 110 = true ∧ crossed_left 90 100 110 = false)
    ∧ (crossed_left 110 100 90 = true ∧ crossed_right 110 100 90 = false)
    ∧ (crossed_right 90 100 95 = false ∧ crossed_left 90 100 95 = false) := by
  refine ⟨?_, ?_, ?_, ?_, ?_, ?_, ?_, ?_⟩
  · intro px lx cx
    simp [crossed_right]
  · intro px lx cx
    simp [crossed_left]
  · intro cfg s o h
    by_cases hcls : o.cls ∈ cfg.vehicle_classes <;> simp [step, hcls, h]
  · intro cfg s o prev hprev hcr hcl
    by_cases hcls : o.cls ∈ cfg.vehicle_classes <;> simp [step, hcls, hprev, hcr, hcl]
  · intro cfg s o e he
    rcases step_spec cfg s o with ⟨h2, _, _⟩ | ⟨e', h2, _, _, _, _, _, _, prev, hprev, hdir, hcross⟩
    · rw [h2] at he
      exact absurd he (by simp)
    · rw [h2] at he
      injection he with h1 _
      exact ⟨prev, hprev, h1 ▸ hdir, hcross⟩
  · constructor <;> norm_num [crossed_right, crossed_left]
  · constructor <;> norm_num [crossed_right, crossed_left]
  · constructor <;> norm_num [crossed_right, crossed_left]

theorem direction_classification_witness :
    initState.previous_positions o0.track_id = none ∧ (step cfg0 initState o0).2 = [] :=
  ⟨rfl, direction_classification.2.2.1 cfg0 initState o0 rfl⟩

/-- An item on the detector → analyzer queue: a raw crossing record, or
`None`, the end-of-stream sentinel (`detect_cars.py` lines 45, 156, 210). -/
inductive QItem : Type
  | record : Event → QItem
  | sentinel : QItem
deriving DecidableEq, Repr

/-- Why the producer's frame loop stopped: end of input or a failed
`cap.read()` (`detect_cars.py` lines 78-80), `KeyboardInterrupt`
(line 204), or an internal exception (lines 206-207). -/
inductive StopCause : Type
  | endOfInput : StopCause
  | readFailure : StopCause
  | internalError : StopCause
  | cancelled : StopCause
deriving DecidableEq, Repr

/-- The sequence of `data_queue.put` calls one invocation of
`run_detection` performs.  If the capture cannot be opened
(`openOk = false`), the producer puts only the sentinel and returns
(lines 43-46), processing no frame.  Otherwise the loop body puts the
events of the observations it processed before stopping — `obss` is that
(possibly truncated) observation sequence — and the `finally` block
(lines 208-210) puts the sentinel last, whatever the stopping cause. -/
def producer_trace (cfg : Config) (openOk : Bool) (cause : StopCause)
    (obss : List Obs) : List QItem :=
  if openOk then ((run_detection cfg initState obss).2.map QItem.record) ++ [QItem.sentinel]
  else [QItem.sentinel]

/-- C7: on every path of the producer the end-of-stream sentinel is
enqueued exactly once and is the final enqueue; the trace does not depend
on the stopping cause; and with an unreachable source the trace is the
sentinel alone. -/
theorem sentinel_exactly_once (cfg : Config) (openOk : Bool) (cause : StopCause)
    (obss : List Obs) :
    (producer_trace cfg openOk cause obss).countP (fun q => q = QItem.sentinel) = 1
    ∧ (producer_trace cfg openOk cause obss).getLast? = some QItem.sentinel
    ∧ (∀ c1 c2 : StopCause,
        producer_trace cfg openOk c1 obss = producer_trace cfg openOk c2 obss)
    ∧ (openOk = false → producer_trace cfg openOk cause obss = [QItem.sentinel]) := by
  by_cases hopen : openOk = true
  · refine ⟨?_, ?_, fun c1 c2 => rfl, fun hfalse => absurd (hopen ▸ hfalse) (by simp)⟩
    · simp [producer_trace, hopen, List.countP_append, List.countP_map, Function.comp_def]
    · simp [producer_trace, hopen, List.getLast?_append]
  · rw [Bool.not_eq_true] at hopen
    refine ⟨?_, ?_, fun c1 c2 => rfl, fun _ => by simp [producer_trace, hopen]⟩
    · simp [producer_trace, hopen]
    · simp [producer_trace, hopen]

theorem sentinel_exactly_once_witness :
    producer_trace cfg0 false StopCause.readFailure [] = [QItem.sentinel] :=
  (sentinel_exactly_once cfg0 false StopCause.readFailure []).2.2.2 rfl

/-- Failure of the analyzer's per-record computation: Python raises
`ZeroDivisionError` on `distance_pixels / time_elapsed` when
`time_elapsed == 0` (`analyze.py` line 71). -/
inductive AnalyzeError : Type
  | DivideByZero : AnalyzeError
deriving DecidableEq, Repr

/-- The complete vehicle record built by `analyze_stream`
(`analyze.py` lines 80-89). -/
structure Vehicle : Type where
  vehicle_number : Nat
  track_id : Int
  direction : Direction
  distance_pixels : ℚ
  time_elapsed : ℚ
  speed_raw : ℚ
  speed_normalized : ℚ
  timestamp : ℚ
deriving DecidableEq, Repr

/-- Per-record body of `analyze_stream` (`analyze.py` lines 70-89):
`speed_raw = distance_pixels / time_elapsed` — raising `DivideByZero`
when `time_elapsed` is zero, as Python division does — then the RTL
perspective correction `speed_normalized`, then the full record. -/
def analyze_record (rtl_factor : ℚ) (data : Event) : Except AnalyzeError Vehicle :=
  if data.time_elapsed = 0 then Except.error AnalyzeError.DivideByZero
  else
    let speed_raw := data.distance_pixels / data.time_elapsed
    let speed_normalized :=
      if data.direction = Direction.RTL then speed_raw * rtl_factor else speed_raw
    Except.ok
      { vehicle_number := data.vehicle_number
        track_id := data.track_id
        direction := data.direction
        distance_pixels := data.distance_pixels
        time_elapsed := data.time_elapsed
        speed_raw := speed_raw
        speed_normalized := speed_normalized
        timestamp := data.timestamp }

/-- Witness event: an RTL crossing of 200 px in 2 s (raw speed 100). -/
def evRTL : Event :=
  { vehicle_number := 1, track_id := 7, direction := Direction.RTL
    distance_pixels := 200, time_elapsed := 2, timestamp := 0 }

/-- Witness event: an LTR crossing of 300 px in 3 s (raw speed 100). -/
def evLTR : Event :=
  { vehicle_number := 2, track_id := 8, direction := Direction.LTR
    distance_pixels := 300, time_elapsed := 3, timestamp := 1 }

/-- The record the analyzer builds from `evRTL` with factor `23/20`
(= 1.15): raw 100, normalized 115. -/
def vRTL : Vehicle :=
  { vehicle_number := 1, track_id := 7, direction := Direction.RTL
    distance_pixels := 200, time_elapsed := 2, speed_raw := 100
    speed_normalized := 115, timestamp := 0 }

/-- The record the analyzer builds from `evLTR` with factor `23/20`:
raw 100, normalized 100 (unchanged). -/
def vLTR : Vehicle :=
  { vehicle_number := 2, track_id := 8, direction := Direction.LTR
    distance_pixels := 300, time_elapsed := 3, speed_raw := 100
    speed_normalized := 100, timestamp := 1 }

/-- An event with `time_elapsed` zero, for the divide-by-zero branch. -/
def evZero : Event :=
  { vehicle_number := 3, track_id := 9, direction := Direction.LTR
    distance_pixels := 50, time_elapsed := 0, timestamp := 2 }

/-- C4: every successfully built vehicle record has
`speed_raw = distance_pixels / time_elapsed` and
`speed_normalized = speed_raw * rtl_factor` exactly for RTL records;
with factor `1.15` a raw RTL speed of 100 normalizes to 115 while an
LTR speed of 100 is unchanged. -/
theorem speed_computation :
    (∀ (f : ℚ) (data : Event) (v : Vehicle), analyze_record f data = Except.ok v →
      v.speed_raw = data.distance_pixels / data.time_elapsed
      ∧ v.speed_normalized =
          (if data.direction = Direction.RTL then v.speed_raw * f else v.speed_raw))
    ∧ analyze_record (23/20) evRTL = Except.ok vRTL
    ∧ vRTL.speed_raw = 100 ∧ vRTL.speed_normalized = 115
    ∧ analyze_record (23/20) evLTR = Except.ok vLTR
    ∧ vLTR.speed_raw = 100 ∧ vLTR.speed_normalized = 100 := by
  refine ⟨?_, ?_, rfl, rfl, ?_, rfl, rfl⟩
  · intro f data v h
    by_cases ht : data.time_elapsed = 0
    · simp [analyze_record, ht] at h
    · simp only [analyze_record, if_neg ht] at h
      injection h with h
      subst h
      exact ⟨rfl, rfl⟩
  · norm_num [analyze_record, evRTL, vRTL]
  · norm_num [analyze_record, evLTR, vLTR]
    decide

theorem speed_computation_witness :
    analyze_record (23/20) evRTL = Except.ok vRTL ∧
      vRTL.speed_raw = evRTL.distance_pixels / evRTL.time_elapsed :=
  ⟨speed_computation.2.1,
    (speed_computation.1 (23/20) evRTL vRTL speed_computation.2.1).1⟩

/-- C5: the analyzer's speed computation fails with the explicit
`DivideByZero` condition exactly when `time_elapsed` is zero; under the
dwell-threshold invariant (`time_elapsed` strictly positive) that error
branch is unreachable. -/
theorem divide_by_zero_guard :
    (∀ (f : ℚ) (data : Event), data.time_elapsed = 0 →
      analyze_record f data = Except.error AnalyzeError.DivideByZero)
    ∧ (∀ (f : ℚ) (data : Event), 0 < data.time_elapsed →
      analyze_record f data ≠ Except.error AnalyzeError.DivideByZero) := by
  constructor
  · intro f data h
    simp [analyze_record, h]
  · intro f data h
    have hne : ¬(data.time_elapsed = 0) := ne_of_gt h
    simp [analyze_record, hne]

theorem divide_by_zero_guard_witness :
    evZero.time_elapsed = 0
    ∧ analyze_record 1 evZero = Except.error AnalyzeError.DivideByZero
    ∧ (0:ℚ) < evRTL.time_elapsed
    ∧ analyze_record (23/20) evRTL ≠ Except.error AnalyzeError.DivideByZero :=
  ⟨rfl, divide_by_zero_guard.1 1 evZero rfl, by norm_num [evRTL],
    divide_by_zero_guard.2 (23/20) evRTL (by norm_num [evRTL])⟩

/-- Python `sorted(speeds)` (`analyze.py` line 153): the ascending
reordering of the list (stable; on plain rationals any correct ascending
sort yields the same list), embedded as insertion sort. -/
def sorted_speeds (speeds : List ℚ) : List ℚ := List.insertionSort (· ≤ ·) speeds

/-- Python `int(x)`: truncation toward zero. -/
def pyInt (x : ℚ) : Int := if 0 ≤ x then Int.floor x else Int.ceil x

/-- `int(n * (p / 100))` — the percentile index computation of
`write_report` (`analyze.py` lines 157-158). -/
def percentile_idx (n : Nat) (p : ℚ) : Int := pyInt ((n : ℚ) * (p / 100))

/-- Python list subscription `xs[i]`: negative indices wrap once on the
length, and `none` models `IndexError`. -/
def pyIndex (xs : List ℚ) (i : Int) : Option ℚ :=
  if 0 ≤ i then xs[i.toNat]?
  else if 0 ≤ (xs.length : Int) + i then xs[((xs.length : Int) + i).toNat]? else none

/-- `sorted_speeds[p_idx]` — the percentile speed fetched by
`write_report` (`analyze.py` lines 160-161). -/
def percentile_value (speeds : List ℚ) (p : ℚ) : Option ℚ :=
  pyIndex (sorted_speeds speeds) (percentile_idx speeds.length p)

/-- The spec's nearest-rank formula: the element at index
`floor(n * p / 100)` of the ascending-sorted speed list. -/
def nearest_rank_value (speeds : List ℚ) (p : ℚ) : Option ℚ :=
  (sorted_speeds speeds)[(Nat.floor ((speeds.length : ℚ) * p / 100))]?

/-- With `0 ≤ p` the Python index computation is the natural-number
floor of `n * p / 100`. -/
theorem percentile_idx_of_nonneg (n : Nat) (p : ℚ) (hp : 0 ≤ p) :
    percentile_idx n p = (Nat.floor ((n : ℚ) * p / 100) : Int) := by
  have harg : (0:ℚ) ≤ (n : ℚ) * (p / 100) :=
    mul_nonneg (Nat.cast_nonneg n) (by positivity)
  rw [percentile_idx, pyInt, if_pos harg, ← mul_div_assoc]
  exact (Int.natCast_floor_eq_floor (by rw [mul_div_assoc]; exact harg)).symm

/-- With `0 ≤ p < 100` and a nonempty list the percentile index is
strictly below the list length. -/
theorem percentile_floor_lt (speeds : List ℚ) (p : ℚ) (hn : 1 ≤ speeds.length)
    (hp0 : 0 ≤ p) (hp1 : p < 100) :
    Nat.floor ((speeds.length : ℚ) * p / 100) < speeds.length := by
  have harg : (0:ℚ) ≤ (speeds.length : ℚ) * p / 100 := by positivity
  rw [Nat.floor_lt harg]
  have hnpos : (0:ℚ) < (speeds.length : ℚ) := by
    exact_mod_cast Nat.lt_of_lt_of_le Nat.zero_lt_one hn
  rw [div_lt_iff (by norm_num : (0:ℚ) < 100)]
  have := mul_lt_mul_of_pos_left hp1 hnpos
  linarith

/-- The sorted list has the same length as the input. -/
theorem sorted_speeds_length (speeds : List ℚ) :
    (sorted_speeds speeds).length = speeds.length :=
  List.length_insertionSort _ speeds

/-- Sorting is invariant under permutation of the input. -/
theorem sorted_speeds_perm (speeds speeds' : List ℚ) (h : speeds'.Perm speeds) :
    sorted_speeds speeds' = sorted_speeds speeds := by
  have hs' : List.Sorted (· ≤ ·) (sorted_speeds speeds') :=
    List.sorted_insertionSort _ speeds'
  have hs : List.Sorted (· ≤ ·) (sorted_speeds speeds) :=
    List.sorted_insertionSort _ speeds
  have hperm : (sorted_speeds speeds').Perm (sorted_speeds speeds) :=
    ((List.perm_insertionSort _ speeds').trans h).trans
      (List.perm_insertionSort _ speeds).symm
  exact List.eq_of_perm_of_sorted hperm hs' hs

/-- C9: the percentile speeds used by `write_report` are computed by
nearest-rank indexing — the element at index `floor(n * p / 100)` of the
ascending-sorted speed list — the lookup succeeds, and the result is
deterministic: invariant under permutation of the speed list. -/
theorem percentile_nearest_rank (speeds : List ℚ) (p : ℚ)
    (hn : 4 ≤ speeds.length) (hp0 : 0 ≤ p) (hp1 : p < 100) :
    percentile_value speeds p = nearest_rank_value speeds p
    ∧ (percentile_value speeds p).isSome = true
    ∧ ∀ speeds' : List ℚ, speeds'.Perm speeds →
        percentile_value speeds' p = percentile_value speeds p := by
  have hn1 : 1 ≤ speeds.length := le_trans (by norm_num) hn
  have heq : percentile_value speeds p = nearest_rank_value speeds p := by
    rw [percentile_value, nearest_rank_value, percentile_idx_of_nonneg _ _ hp0, pyIndex,
      if_pos (Int.natCast_nonneg _), Int.toNat_natCast]
  refine ⟨heq, ?_, ?_⟩
  · rw [heq, nearest_rank_value]
    have hlt : Nat.floor ((speeds.length : ℚ) * p / 100) < (sorted_speeds speeds).length := by
      rw [sorted_speeds_length]
      exact percentile_floor_lt speeds p hn1 hp0 hp1
    rw [List.getElem?_eq_getElem hlt]
    rfl
  · intro speeds' hperm
    rw [percentile_value, percentile_value, sorted_speeds_perm speeds speeds' hperm,
      hperm.length_eq]

theorem percentile_nearest_rank_witness :
    (0:ℚ) ≤ 95 ∧
      percentile_value [3, 1, 4, 2] 95 = nearest_rank_value [3, 1, 4, 2] 95 :=
  ⟨by norm_num,
    (percentile_nearest_rank [3, 1, 4, 2] 95 (by simp) (by norm_num) (by norm_num)).1⟩

/-- C10: for a nonempty speed list and a percentile `0 ≤ p < 100`, the
computed index is in range — between `0` and `n - 1` — and the lookup
succeeds; for `p = 100` the computed index equals `n`, out of range, and
the lookup fails. -/
theorem percentile_index_bounds (speeds : List ℚ) (p : ℚ)
    (hn : 1 ≤ speeds.length) (hp0 : 0 ≤ p) :
    (p < 100 →
      0 ≤ percentile_idx speeds.length p
      ∧ (percentile_idx speeds.length p).toNat ≤ speeds.length - 1
      ∧ (percentile_value speeds p).isSome = true)
    ∧ percentile_idx speeds.length 100 = (speeds.length : Int)
    ∧ percentile_value speeds 100 = none := by
  refine ⟨fun hp1 => ⟨?_, ?_, ?_⟩, ?_, ?_⟩
  · rw [percentile_idx_of_nonneg _ _ hp0]
    exact Int.natCast_nonneg _
  · rw [percentile_idx_of_nonneg _ _ hp0, Int.toNat_natCast]
    have := percentile_floor_lt speeds p hn hp0 hp1
    omega
  · rw [percentile_value, percentile_idx_of_nonneg _ _ hp0, pyIndex,
      if_pos (Int.natCast_nonneg _), Int.toNat_natCast]
    have hlt : Nat.floor ((speeds.length : ℚ) * p / 100) < (sorted_speeds speeds).length := by
      rw [sorted_speeds_length]
      exact percentile_floor_lt speeds p hn hp0 hp1
    rw [List.getElem?_eq_getElem hlt]
    rfl
  · rw [percentile_idx_of_nonneg _ _ (by norm_num : (0:ℚ) ≤ 100)]
    norm_num
  · rw [percentile_value, percentile_idx_of_nonneg _ _ (by norm_num : (0:ℚ) ≤ 100), pyIndex,
      if_pos (Int.natCast_nonneg _), Int.toNat_natCast]
    apply List.getElem?_eq_none
    rw [sorted_speeds_length]
    norm_num

theorem percentile_index_bounds_witness :
    (0:ℚ) ≤ 50
    ∧ (percentile_idx [(5:ℚ)].length 50).toNat ≤ [(5:ℚ)].length - 1
    ∧ percentile_value [(5:ℚ)] 100 = none :=
  ⟨by norm_num,
    ((percentile_index_bounds [(5:ℚ)] 50 (by simp) (by norm_num)).1 (by norm_num)).2.1,
    (percentile_index_bounds [(5:ℚ)] 50 (by simp) (by norm_num)).2.2⟩

/-- `bin_width = speed_range / num_bins` (`analyze.py` lines 162, 169). -/
def bin_width (min_speed_p max_speed_p : ℚ) (num_bins : Nat) : ℚ :=
  (max_speed_p - min_speed_p) / num_bins

/-- The bins list of `write_report` (`analyze.py` lines 170-177): the
below-percentile bin `(0, min_speed_p)`, `num_bins` equal-width bins
`(min_speed_p + i*w, min_speed_p + (i+1)*w)`, and the above-percentile
bin `(max_speed_p, float(inf))` — the unbounded high edge is `none`. -/
def mkBins (min_speed_p max_speed_p w : ℚ) (num_bins : Nat) : List (ℚ × Option ℚ) :=
  ((0, some min_speed_p) ::
    (List.range num_bins).map (fun (i : Nat) =>
      (min_speed_p + (i : ℚ) * w, some (min_speed_p + ((i : ℚ) + 1) * w))))
  ++ [(max_speed_p, none)]

/-- `speed < high`, where `none` stands for `float(inf)`. -/
def lt_high (speed : ℚ) : Option ℚ → Bool
  | some h => speed < h
  | none => true

/-- The first matching bin in the counting loop of `write_report`
(`analyze.py` lines 182-190): every bin but the last is matched by
`low <= speed < high`; the last bin by `speed >= low` alone; `none` when
no bin matches. -/
def binIndex (speed : ℚ) : List (ℚ × Option ℚ) → Option Nat
  | [] => none
  | [b] => if b.1 ≤ speed then some 0 else none
  | b :: b2 :: rest =>
    if b.1 ≤ speed && lt_high speed b.2 then some 0
    else (binIndex speed (b2 :: rest)).map (· + 1)

/-- The `bin_counts` accumulation of `write_report` (`analyze.py`
lines 180-190): starting from `[0] * len(bins)`, each speed increments
the count of its first matching bin. -/
def binCounts (bins : List (ℚ × Option ℚ)) (speeds : List ℚ) : List Nat :=
  speeds.foldl
    (fun counts speed =>
      match binIndex speed bins with
      | some i => counts.set i (counts.getD i 0 + 1)
      | none => counts)
    (List.replicate bins.length 0)

/-- The chain of equal-width bins starting at `start`, written
recursively for induction. -/
def normalBins (start w : ℚ) : Nat → List (ℚ × Option ℚ)
  | 0 => []
  | k + 1 => (start, some (start + w)) :: normalBins (start + w) w k

/-- The mapped-range form of the normal bins used by `mkBins` agrees with
the recursive chain. -/
theorem range_map_eq_normalBins (w : ℚ) :
    ∀ (nb : Nat) (m : ℚ),
      (List.range nb).map (fun (i : Nat) =>
          (m + (i : ℚ) * w, some (m + ((i : ℚ) + 1) * w)))
        = normalBins m w nb := by
  intro nb
  induction nb with
  | zero => intro m; rfl
  | succ n ih =>
    intro m
    rw [List.range_succ_eq_map, List.map_cons, List.map_map]
    have h0 : (m + ((0:Nat) : ℚ) * w, some (m + (((0:Nat) : ℚ) + 1) * w))
        = (m, some (m + w)) := by
      norm_num
    have hf : ((fun (i : Nat) => (m + (i : ℚ) * w, some (m + ((i : ℚ) + 1) * w))) ∘ Nat.succ)
        = (fun (i : Nat) => ((m + w) + (i : ℚ) * w, some ((m + w) + ((i : ℚ) + 1) * w))) := by
      funext i
      simp only [Function.comp_apply, Nat.succ_eq_add_one, Prod.mk.injEq, Option.some.injEq]
      push_cast
      constructor <;> ring
    rw [h0, hf, ih (m + w)]
    rfl

/-- Unfolding `binIndex` on a cons cell with a nonempty tail. -/
theorem binIndex_cons (speed : ℚ) (b : ℚ × Option ℚ) (rest : List (ℚ × Option ℚ))
    (h : rest ≠ []) :
    binIndex speed (b :: rest) =
      (if b.1 ≤ speed && lt_high speed b.2 then some 0
        else (binIndex speed rest).map (· + 1)) := by
  cases rest with
  | nil => exact absurd rfl h
  | cons b2 rest2 => rfl

/-- A speed at or above the top percentile value fails every normal bin's
`speed < high` test and lands in the final, unbounded bin. -/
theorem binIndex_normal_skip (speed M w : ℚ) (hw : 0 ≤ w) (hsp : M ≤ speed) :
    ∀ (k : Nat) (m : ℚ), m + (k : ℚ) * w = M →
      binIndex speed (normalBins m w k ++ [(M, none)]) = some k := by
  intro k
  induction k with
  | zero =>
    intro m hm
    simp [normalBins, binIndex, hsp]
  | succ n ih =>
    intro m hm
    have hexp : ((n : ℚ) + 1) * w = (n : ℚ) * w + w := by ring
    push_cast at hm
    rw [hexp] at hm
    have hnw : 0 ≤ (n : ℚ) * w := mul_nonneg (Nat.cast_nonneg n) hw
    have hx : ¬(speed < m + w) := by
      apply not_lt.mpr
      apply le_trans _ hsp
      linarith
    have hmw : (m + w) + (n : ℚ) * w = M := by linarith
    rw [normalBins, List.cons_append, binIndex_cons _ _ _ (by simp)]
    rw [if_neg (by simp [lt_high, hx])]
    rw [ih (m + w) hmw]
    rfl

/-- A speed inside the covered normal range `[m, m + k*w)` lands in the
normal bin indexed by the floor of its offset in widths. -/
theorem binIndex_normal_mem (speed w : ℚ) (hw : 0 < w) (M : ℚ) :
    ∀ (k : Nat) (m : ℚ), m ≤ speed → speed < m + (k : ℚ) * w →
      binIndex speed (normalBins m w k ++ [(M, none)]) =
        some (Nat.floor ((speed - m) / w)) := by
  intro k
  induction k with
  | zero =>
    intro m hm hlt
    push_cast at hlt
    linarith
  | succ n ih =>
    intro m hm hlt
    push_cast at hlt
    have hexp : ((n : ℚ) + 1) * w = (n : ℚ) * w + w := by ring
    rw [hexp] at hlt
    rw [normalBins, List.cons_append, binIndex_cons _ _ _ (by simp)]
    by_cases hsp : speed < m + w
    · rw [if_pos (by simp [lt_high]; exact ⟨hm, hsp⟩)]
      have h0 : Nat.floor ((speed - m) / w) = 0 := by
        rw [Nat.floor_eq_zero, div_lt_one hw]
        linarith
      rw [h0]
    · rw [if_neg (by simp [lt_high, hsp])]
      have hm' : m + w ≤ speed := not_lt.mp hsp
      have hlt' : speed < (m + w) + (n : ℚ) * w := by linarith
      rw [ih (m + w) hm' hlt']
      have harg : (speed - m) / w = (speed - (m + w)) / w + 1 := by
        field_simp
        ring
      have hnn : 0 ≤ (speed - (m + w)) / w :=
        div_nonneg (by linarith) hw.le
      rw [Option.map_some', harg, Nat.floor_add_one hnn]

/-- `binIndex` only returns indices inside the bins list. -/
theorem binIndex_lt_length (speed : ℚ) :
    ∀ (bins : List (ℚ × Option ℚ)) (i : Nat),
      binIndex speed bins = some i → i < bins.length := by
  intro bins
  induction bins with
  | nil =>
    intro i h
    simp [binIndex] at h
  | cons b rest ih =>
    intro i h
    cases rest with
    | nil =>
      by_cases hb : b.1 ≤ speed
      · rw [binIndex, if_pos hb] at h
        injection h with h
        subst h
        simp
      · rw [binIndex, if_neg hb] at h
        exact absurd h (by simp)
    | cons b2 rest2 =>
      rw [binIndex_cons _ _ _ (by simp)] at h
      by_cases hb : (b.1 ≤ speed && lt_high speed b.2) = true
      · rw [if_pos hb] at h
        injection h with h
        subst h
        simp
      · rw [if_neg hb] at h
        cases hx : binIndex speed (b2 :: rest2) with
        | none =>
          rw [hx] at h
          exact absurd h (by simp)
        | some j =>
          rw [hx] at h
          rw [Option.map_some'] at h
          injection h with h
          have := ih j hx
          simp only [List.length_cons] at this ⊢
          omega

/-- Incrementing one in-range cell adds one to the total. -/
theorem sum_set_getD :
    ∀ (counts : List Nat) (i : Nat), i < counts.length →
      (counts.set i (counts.getD i 0 + 1)).sum = counts.sum + 1 := by
  intro counts
  induction counts with
  | nil =>
    intro i h
    simp at h
  | cons a l ih =>
    intro i h
    cases i with
    | zero =>
      simp only [List.getD_cons_zero, List.set_cons_zero, List.sum_cons]
      omega
    | succ n =>
      simp only [List.getD_cons_succ, List.set_cons_succ, List.sum_cons]
      rw [ih n (by simpa using h)]
      omega

/-- The counting fold adds one per speed whenever every speed finds a
bin. -/
theorem foldl_binCounts_sum (bins : List (ℚ × Option ℚ)) :
    ∀ (speeds : List ℚ) (counts : List Nat), counts.length = bins.length →
      (∀ x ∈ speeds, (binIndex x bins).isSome = true) →
      (List.foldl
        (fun counts speed =>
          match binIndex speed bins with
          | some i => counts.set i (counts.getD i 0 + 1)
          | none => counts) counts speeds).sum = counts.sum + speeds.length := by
  intro speeds
  induction speeds with
  | nil =>
    intro counts _ _
    simp
  | cons x xs ih =>
    intro counts hlen hall
    rw [List.foldl_cons]
    cases hx : binIndex x bins with
    | none => exact absurd (hall x (by simp)) (by simp [hx])
    | some i =>
      have hi : i < counts.length := by
        rw [hlen]
        exact binIndex_lt_length x bins i hx
      simp only [hx]
      rw [ih (counts.set i (counts.getD i 0 + 1))
        (by rw [List.length_set, hlen]) (fun y hy => hall y (by simp [hy]))]
      rw [sum_set_getD counts i hi]
      simp only [List.length_cons]
      omega

/-- When every speed finds a bin, the bin counts total the number of
speeds. -/
theorem binCounts_sum (bins : List (ℚ × Option ℚ)) (speeds : List ℚ)
    (hall : ∀ x ∈ speeds, (binIndex x bins).isSome = true) :
    (binCounts bins speeds).sum = speeds.length := by
  rw [binCounts, foldl_binCounts_sum bins speeds _ (by simp) hall]
  simp

/-- Full characterization of the bin lookup on the bins `write_report`
builds: below-percentile speeds hit bin 0, speeds at or above the top
percentile value hit the final bin `nb + 1`, and everything else hits the
normal bin of its offset. -/
theorem binIndex_mkBins (m M : ℚ) (nb : Nat) (speed : ℚ)
    (hmM : m ≤ M) (hnb : 1 ≤ nb) (hsp : 0 ≤ speed) :
    binIndex speed (mkBins m M (bin_width m M nb) nb) =
      some (if speed < m then 0
        else if M ≤ speed then nb + 1
        else Nat.floor ((speed - m) / bin_width m M nb) + 1) := by
  have hnbq : (0:ℚ) < (nb : ℚ) := by
    have hnb0 : 0 < nb := hnb
    exact_mod_cast hnb0
  have hw0 : 0 ≤ bin_width m M nb :=
    div_nonneg (sub_nonneg.mpr hmM) hnbq.le
  have hnbw : m + (nb : ℚ) * bin_width m M nb = M := by
    have hc : (nb : ℚ) * ((M - m) / (nb : ℚ)) = M - m := by
      field_simp
    rw [bin_width, hc]
    ring
  rw [mkBins, range_map_eq_normalBins, List.cons_append]
  by_cases h1 : speed < m
  · rw [binIndex_cons _ _ _ (by simp)]
    rw [if_pos (by simp [lt_high]; exact ⟨hsp, h1⟩), if_pos h1]
  · rw [binIndex_cons _ _ _ (by simp), if_neg (by simp [lt_high, h1])]
    by_cases h2 : M ≤ speed
    · rw [binIndex_normal_skip speed M (bin_width m M nb) hw0 h2 nb m hnbw]
      rw [if_neg h1, if_pos h2]
      rfl
    · have hm_le : m ≤ speed := not_lt.mp h1
      have hltM : speed < M := not_le.mp h2
      have hwpos : 0 < bin_width m M nb := by
        rw [bin_width]
        apply div_pos _ hnbq
        linarith
      rw [binIndex_normal_mem speed (bin_width m M nb) hwpos M nb m hm_le
        (by rw [hnbw]; exact hltM)]
      rw [if_neg h1, if_neg h2]
      rfl

/-- C8 (amended): over the `num_bins + 2` bins built by `write_report`,
every nonnegative speed is assigned to exactly one bin — the below bin
when `speed < p_low_value`, the above bin when `speed >= p_high_value`
(including `p_high_value` itself), and otherwise the unique normal bin
`[low, high)` containing it, ties at a lower edge going to that bin — so
the bin counts sum to the number of speeds. -/
theorem bin_assignment (m M : ℚ) (nb : Nat) (speed : ℚ) (speeds : List ℚ)
    (hmM : m ≤ M) (hnb : 1 ≤ nb) (hsp : 0 ≤ speed) (hspl : ∀ x ∈ speeds, 0 ≤ x) :
    (mkBins m M (bin_width m M nb) nb).length = nb + 2
    ∧ (speed < m → binIndex speed (mkBins m M (bin_width m M nb) nb) = some 0)
    ∧ (M ≤ speed → binIndex speed (mkBins m M (bin_width m M nb) nb) = some (nb + 1))
    ∧ (m ≤ speed → speed < M →
        ∃ i, i < nb
          ∧ m + (i : ℚ) * bin_width m M nb ≤ speed
          ∧ speed < m + ((i : ℚ) + 1) * bin_width m M nb
          ∧ binIndex speed (mkBins m M (bin_width m M nb) nb) = some (i + 1)
          ∧ ∀ j : Nat, j < nb → m + (j : ℚ) * bin_width m M nb ≤ speed →
              speed < m + ((j : ℚ) + 1) * bin_width m M nb → j = i)
    ∧ (binCounts (mkBins m M (bin_width m M nb) nb) speeds).sum = speeds.length := by
  have hnbq : (0:ℚ) < (nb : ℚ) := by
    have hnb0 : 0 < nb := hnb
    exact_mod_cast hnb0
  have hnbw : m + (nb : ℚ) * bin_width m M nb = M := by
    have hc : (nb : ℚ) * ((M - m) / (nb : ℚ)) = M - m := by
      field_simp
    rw [bin_width, hc]
    ring
  refine ⟨?_, ?_, ?_, ?_, ?_⟩
  · simp [mkBins]
  · intro h1
    rw [binIndex_mkBins m M nb speed hmM hnb hsp, if_pos h1]
  · intro h2
    have h1 : ¬(speed < m) := not_lt.mpr (le_trans hmM h2)
    rw [binIndex_mkBins m M nb speed hmM hnb hsp, if_neg h1, if_pos h2]
  · intro hm_le hltM
    have h1 : ¬(speed < m) := not_lt.mpr hm_le
    have h2 : ¬(M ≤ speed) := not_le.mpr hltM
    have hwpos : 0 < bin_width m M nb := by
      rw [bin_width]
      apply div_pos _ hnbq
      linarith
    have harg : 0 ≤ (speed - m) / bin_width m M nb :=
      div_nonneg (by linarith) hwpos.le
    refine ⟨Nat.floor ((speed - m) / bin_width m M nb), ?_, ?_, ?_, ?_, ?_⟩
    · rw [Nat.floor_lt harg, div_lt_iff hwpos]
      have : (nb : ℚ) * bin_width m M nb = M - m := by linarith
      rw [mul_comm] at this
      linarith
    · have hfl : ((Nat.floor ((speed - m) / bin_width m M nb) : ℚ)) ≤
          (speed - m) / bin_width m M nb := Nat.floor_le harg
      have := mul_le_mul_of_nonneg_right hfl hwpos.le
      rw [div_mul_cancel₀ _ (ne_of_gt hwpos)] at this
      linarith
    · have hfl : (speed - m) / bin_width m M nb <
          (Nat.floor ((speed - m) / bin_width m M nb) : ℚ) + 1 :=
        Nat.lt_floor_add_one _
      have := mul_lt_mul_of_pos_right hfl hwpos
      rw [div_mul_cancel₀ _ (ne_of_gt hwpos)] at this
      linarith
    · rw [binIndex_mkBins m M nb speed hmM hnb hsp, if_neg h1, if_neg h2]
    · intro j hj hjl hjh
      symm
      rw [Nat.floor_eq_iff harg]
      constructor
      · rw [le_div_iff hwpos]
        linarith
      · rw [div_lt_iff hwpos]
        linarith
  · apply binCounts_sum
    intro x hx
    rw [binIndex_mkBins m M nb x hmM hnb (hspl x hx)]
    rfl

theorem bin_assignment_witness :
    (0:ℚ) ≤ 2 ∧ (mkBins 0 4 (bin_width 0 4 4) 4).length = 4 + 2 :=
  ⟨by norm_num,
    (bin_assignment 0 4 4 2 [] (by norm_num) (by norm_num) (by norm_num)
      (by simp)).1⟩

/-- C8 counterexample: with percentile values `0` and `4` and four normal
bins of width `1`, the speed equal to the high percentile value `4` is
assigned to the unbounded above-percentile bin (index `5 = num_bins + 1`),
not to the final normal bin (index `4`) as "the final normal bin is
closed on the right to include `p_high_value` itself" would require. -/
theorem bin_tie_counterexample :
    bin_width 0 4 4 = 1
    ∧ binIndex 4 (mkBins 0 4 1 4) = some 5
    ∧ binIndex 4 (mkBins 0 4 1 4) ≠ some 4 := by
  refine ⟨by norm_num [bin_width], ?_, ?_⟩
  · norm_num [mkBins, binIndex, lt_high, List.range_succ]
  · norm_num [mkBins, binIndex, lt_high, List.range_succ]

end Traffic
